import Mathlib

/-!
Verification of the Merkle-tree contract-comparison core
(`contractVerification.py`): tree construction, root extraction, proof
generation, proof verification, and the clause-level diff report.

The source's digest function `hash_data` is SHA-256 over UTF-8 rendered as
hex.  Every property verified here is structural and holds for an arbitrary
digest function, so each embedded operation takes the digest function
`hash_data : String → String` as an explicit parameter; theorems quantify
over it and are therefore valid in particular for SHA-256.
-/

namespace SmartContractIntegrity

/-- One pass of the level-combination loop of `build_merkle_tree`
(`for i in range(0, len(level), 2)`): consecutive pairs are combined as
`hash_data (left ++ right)`, and a trailing unpaired node is paired with
itself (`right_child = level[i + 1] if i + 1 < len(level) else level[i]`). -/
def nextLevel (hash_data : String → String) : List String → List String
  | [] => []
  | [a] => [hash_data (a ++ a)]
  | a :: b :: rest => hash_data (a ++ b) :: nextLevel hash_data rest

/-- The `while len(tree[-1]) > 1` loop of `build_merkle_tree`: starting from
a level, stack levels until one of length ≤ 1 is reached. -/
def buildFrom (hash_data : String → String) (level : List String) : List (List String) :=
  if h : level.length ≤ 1 then [level]
  else level :: buildFrom hash_data (nextLevel hash_data level)
termination_by level.length
decreasing_by
  have key : ∀ n (l : List String), l.length ≤ n →
      (nextLevel hash_data l).length ≤ l.length := by
    intro n
    induction n with
    | zero =>
      intro l hl
      have : l = [] := List.length_eq_zero.mp (Nat.le_zero.mp hl)
      simp [this, nextLevel]
    | succ n ih =>
      intro l hl
      rcases l with _ | ⟨a, _ | ⟨b, rest⟩⟩
      · simp [nextLevel]
      · simp [nextLevel]
      · have hr : rest.length ≤ n := by
          simp only [List.length_cons] at hl; omega
        have := ih rest hr
        simp only [nextLevel, List.length_cons]
        omega
  rcases level with _ | ⟨a, _ | ⟨b, rest⟩⟩
  · simp at h
  · simp at h
  · have := key rest.length rest le_rfl
    simp only [nextLevel, List.length_cons]
    omega

/-- `build_merkle_tree(leaf_hashes)`: empty input gives a tree with no
levels; otherwise the tree is the stack of levels from the leaves up. -/
def build_merkle_tree (hash_data : String → String) (leaf_hashes : List String) :
    List (List String) :=
  if leaf_hashes = [] then []
  else buildFrom hash_data leaf_hashes

/-- `get_merkle_root(tree)`: `tree[-1][0] if tree and tree[-1] else
'EMPTY_CONTRACT'`. -/
def get_merkle_root (tree : List (List String)) : String :=
  if h : tree = [] then "EMPTY_CONTRACT"
  else if h2 : tree.getLast h = [] then "EMPTY_CONTRACT"
  else (tree.getLast h).head h2

/-- `compare_merkle_roots(root1, root2)`. -/
def compare_merkle_roots (root1 root2 : String) : Bool :=
  root1 = root2

/-- The inner pair-scanning loop of `get_merkle_proof` at one level: scan
pairs left to right (odd trailing node paired with itself); on the first
pair whose left or right element equals `current`, return the recorded
proof step `(sibling, side)` together with the recomputed parent
`hash_data (left ++ right)`; `none` when no pair contains `current`. -/
def findPair (hash_data : String → String) (current : String) :
    List String → Option (String × String × String)
  | [] => none
  | [a] =>
    if current = a then some (a, "right", hash_data (a ++ a)) else none
  | a :: b :: rest =>
    if current = a then some (b, "right", hash_data (a ++ b))
    else if current = b then some (a, "left", hash_data (a ++ b))
    else findPair hash_data current rest

/-- The outer level loop of `get_merkle_proof` (`for level_index in
range(len(tree) - 1)`), carried over the list of levels below the root:
accumulate proof steps; when a level does not contain the current hash,
return the empty proof (`return []` in the source), discarding what was
accumulated. -/
def proofLoop (hash_data : String → String) :
    String → List (String × String) → List (List String) → List (String × String)
  | _, acc, [] => acc
  | current, acc, lvl :: rest =>
    match findPair hash_data current lvl with
    | some (sib, side, parent) => proofLoop hash_data parent (acc ++ [(sib, side)]) rest
    | none => []

/-- `get_merkle_proof(tree, target_hash)`: guard `if not tree or not
tree[0]: return []`, then the level loop over all levels but the last. -/
def get_merkle_proof (hash_data : String → String) (tree : List (List String))
    (target_hash : String) : List (String × String) :=
  match tree with
  | [] => []
  | lvl0 :: rest =>
    if lvl0 = [] then []
    else proofLoop hash_data target_hash [] ((lvl0 :: rest).dropLast)

/-- `verify_merkle_proof(proof, target_hash, merkle_root)`: fold the proof
steps over the running hash, combining `sibling ++ computed` for side
`"left"` and `computed ++ sibling` for side `"right"`; any other side value
returns `False` at once; finally compare with the expected root.  The side
is a plain string, as at runtime in the source. -/
def verify_merkle_proof (hash_data : String → String) :
    List (String × String) → String → String → Bool
  | [], computed_hash, merkle_root => computed_hash = merkle_root
  | (sibling_hash, side) :: rest, computed_hash, merkle_root =>
    if side = "left" then
      verify_merkle_proof hash_data rest (hash_data (sibling_hash ++ computed_hash)) merkle_root
    else if side = "right" then
      verify_merkle_proof hash_data rest (hash_data (computed_hash ++ sibling_hash)) merkle_root
    else false

/-- Proof-side helper: the hash chain a proof computes from a starting
digest, `none` as soon as a step's side is neither `"left"` nor
`"right"`. -/
def verifyFold (hash_data : String → String) :
    List (String × String) → String → Option String
  | [], computed => some computed
  | (sibling_hash, side) :: rest, computed =>
    if side = "left" then verifyFold hash_data rest (hash_data (sibling_hash ++ computed))
    else if side = "right" then verifyFold hash_data rest (hash_data (computed ++ sibling_hash))
    else none

/-- A concrete stand-in digest function used to instantiate the
digest-parametric theorems on closed inputs. -/
def demoHash (s : String) : String := "#" ++ s ++ ")"

/-- Word character of the report's regular expressions (`\w`, ASCII
range). -/
def isWordChar (c : Char) : Bool := c.isAlphanum || c = '_'

/-- Whitespace character of the report's regular expressions (`\s`, ASCII
range) and of Python's `str.strip`. -/
def isSpaceChar (c : Char) : Bool :=
  c = ' ' || c = '\t' || c = '\n' || c = '\r' || c = Char.ofNat 11 || c = Char.ofNat 12

/-- Python's `str.strip()`: remove leading and trailing whitespace. -/
def pyStrip (s : List Char) : List Char :=
  ((s.dropWhile isSpaceChar).reverse.dropWhile isSpaceChar).reverse

/-- Case-insensitive literal match at the start of the input (the
`re.IGNORECASE` alternation heads): returns the matched original characters
and the remainder. -/
def matchCaseIns : List Char → List Char → Option (List Char × List Char)
  | [], s => some ([], s)
  | _ :: _, [] => none
  | p :: ps, c :: cs =>
    if c.toLower = p then
      match matchCaseIns ps cs with
      | some (m, r) => some (c :: m, r)
      | none => none
    else none

/-- The `(clause|section)` alternation (case-insensitive) at the start of a
clause: the matched text and the remainder, trying `clause` first as the
regex engine does. -/
def markerStem (s : List Char) : Option (List Char × List Char) :=
  match matchCaseIns "clause".toList s with
  | some (m, r) => some (m, r)
  | none => matchCaseIns "section".toList s

/-- `clean_clause`: `re.sub(r"^(clause|section)\s*\w*:\s*", "", c,
flags=re.IGNORECASE).strip()`.  The anchored pattern removes a leading
marker — keyword, whitespace, word characters, a colon, whitespace — when
it is present; the result is stripped either way. -/
def clean_clause (c : String) : String :=
  let cs := c.toList
  let stripped :=
    match markerStem cs with
    | some (_, r) =>
      let r2 := (r.dropWhile isSpaceChar).dropWhile isWordChar
      match r2 with
      | ':' :: r3 => r3.dropWhile isSpaceChar
      | _ => cs
    | none => cs
  String.mk (pyStrip stripped)

/-- `get_label`: `re.match(r"^((?:Clause|Section)\s*\w*)", clause_text,
re.IGNORECASE)`; on a match, the stripped group followed by the 1-based
line number, otherwise the line number alone. -/
def get_label (clause_text : String) (line_number : Nat) : String :=
  match markerStem clause_text.toList with
  | some (m, r) =>
    let sp := r.takeWhile isSpaceChar
    let w := (r.dropWhile isSpaceChar).takeWhile isWordChar
    String.mk (pyStrip (m ++ sp ++ w)) ++ " (Line " ++ toString line_number ++ ")"
  | none => "Line " ++ toString line_number

/-- The per-index loop of `get_clause_comparison_report`
(`for i in range(min_len)`), appending a match line, or a difference line
followed by both cleaned clause texts, for each index in turn. -/
def reportLoop (hashes_v1 hashes_v2 clauses_v1 clauses_v2 : List String) :
    List Nat → List String → List String
  | [], report_lines => report_lines
  | i :: is, report_lines =>
    reportLoop hashes_v1 hashes_v2 clauses_v1 clauses_v2 is
      (report_lines ++
        (if hashes_v1.getD i "" = hashes_v2.getD i "" then
          [get_label (clauses_v1.getD i "") (i + 1) ++ ": ✅ Match"]
        else
          [get_label (clauses_v1.getD i "") (i + 1) ++ ": ❌ Difference",
           "   🔹 V1: " ++ clean_clause (clauses_v1.getD i ""),
           "   🔹 V2: " ++ clean_clause (clauses_v2.getD i "")]))

/-- The trailing loop of `get_clause_comparison_report`
(`for i in range(min_len, max_len)`), appending one labeled line per
additional clause of the longer side. -/
def additionalLoop (clauses : List String) : List Nat → List String → List String
  | [], report_lines => report_lines
  | i :: is, report_lines =>
    additionalLoop clauses is
      (report_lines ++
        ["      " ++ get_label (clauses.getD i "") (i + 1) ++ ": " ++
          clean_clause (clauses.getD i "")])

/-- `get_clause_comparison_report(hashes_v1, hashes_v2, clauses_v1,
clauses_v2)`: the header line, the per-index comparison loop over
`range(min_len)`, and, when the lengths differ, the additional-clauses
block taken from the longer side over `range(min_len, max_len)`. -/
def get_clause_comparison_report
    (hashes_v1 hashes_v2 clauses_v1 clauses_v2 : List String) : List String :=
  let report_lines := ["🔎 Clause-Level Comparison:"]
  let min_len := min hashes_v1.length hashes_v2.length
  let max_len := max hashes_v1.length hashes_v2.length
  let after_loop :=
    reportLoop hashes_v1 hashes_v2 clauses_v1 clauses_v2 (List.range min_len) report_lines
  if max_len > min_len then
    if hashes_v1.length > hashes_v2.length then
      additionalLoop clauses_v1 (List.range' min_len (max_len - min_len))
        (after_loop ++ ["Additional Clauses:", "   🔹 V1 has additional clauses:"])
    else
      additionalLoop clauses_v2 (List.range' min_len (max_len - min_len))
        (after_loop ++ ["Additional Clauses:", "   🔹 V2 has additional clauses:"])
  else after_loop

/-! ### Helper lemmas -/

/-- Combining a level halves its length, rounded up. -/
theorem nextLevel_length (hash_data : String → String) :
    ∀ l : List String, (nextLevel hash_data l).length = (l.length + 1) / 2
  | [] => by simp [nextLevel]
  | [a] => by simp [nextLevel]
  | a :: b :: rest => by
    simp only [nextLevel, List.length_cons, nextLevel_length hash_data rest]
    omega

/-- Combining a non-empty level yields a non-empty level. -/
theorem nextLevel_ne_nil (hash_data : String → String) {l : List String} (h : l ≠ []) :
    nextLevel hash_data l ≠ [] := by
  rcases l with _ | ⟨a, _ | ⟨b, rest⟩⟩
  · exact absurd rfl h
  · simp [nextLevel]
  · simp [nextLevel]

/-- Unfolding `buildFrom` on a level of length at most one. -/
theorem buildFrom_of_le (hash_data : String → String) (level : List String)
    (h : level.length ≤ 1) : buildFrom hash_data level = [level] := by
  rw [buildFrom]
  simp [h]

/-- Unfolding `buildFrom` on a level of length at least two. -/
theorem buildFrom_of_lt (hash_data : String → String) (level : List String)
    (h : 2 ≤ level.length) :
    buildFrom hash_data level = level :: buildFrom hash_data (nextLevel hash_data level) := by
  rw [buildFrom]
  have : ¬ level.length ≤ 1 := by omega
  simp [this]

/-- `buildFrom` always produces at least one level. -/
theorem buildFrom_ne_nil (hash_data : String → String) (level : List String) :
    buildFrom hash_data level ≠ [] := by
  by_cases h : level.length ≤ 1
  · simp [buildFrom_of_le hash_data level h]
  · simp [buildFrom_of_lt hash_data level (by omega)]

/-- The first level of `buildFrom` is the starting level. -/
theorem buildFrom_head (hash_data : String → String) (level : List String) :
    ∃ t, buildFrom hash_data level = level :: t := by
  by_cases h : level.length ≤ 1
  · exact ⟨[], buildFrom_of_le hash_data level h⟩
  · exact ⟨_, buildFrom_of_lt hash_data level (by omega)⟩

/-- `get_merkle_root` in terms of `getLast?`: the first element of the last
level when there is one, the sentinel otherwise. -/
theorem get_merkle_root_eq (tree : List (List String)) :
    get_merkle_root tree =
      match tree.getLast? with
      | some (r :: _) => r
      | some [] => "EMPTY_CONTRACT"
      | none => "EMPTY_CONTRACT" := by
  rcases htree : tree.getLast? with _ | lst
  · have : tree = [] := List.getLast?_eq_none_iff.mp htree
    simp [this, get_merkle_root]
  · have hne : tree ≠ [] := by rintro rfl; simp at htree
    have hgl : tree.getLast hne = lst := by
      rw [List.getLast?_eq_getLast tree hne] at htree
      exact Option.some_inj.mp htree
    rcases lst with _ | ⟨r, t⟩
    · simp [get_merkle_root, dif_neg hne, hgl]
    · simp [get_merkle_root, dif_neg hne, hgl]

/-- Dropping the bottom level of a taller tree does not change the root. -/
theorem get_merkle_root_cons (x : List String) (l : List (List String)) (hl : l ≠ []) :
    get_merkle_root (x :: l) = get_merkle_root l := by
  rw [get_merkle_root_eq, get_merkle_root_eq]
  rcases l with _ | ⟨y, t⟩
  · exact absurd rfl hl
  · rw [List.getLast?_cons_cons]

/-- A level that does not contain the current hash has no matching pair. -/
theorem findPair_not_found (hash_data : String → String) :
    ∀ level : List String, ∀ current : String, current ∉ level →
      findPair hash_data current level = none
  | [], current, _ => rfl
  | [a], current, h => by
    have : current ≠ a := by simp at h; exact h
    simp [findPair, this]
  | a :: b :: rest, current, h => by
    have ha : current ≠ a := by simp at h; exact h.1
    have hb : current ≠ b := by simp at h; exact h.2.1
    have hrest : current ∉ rest := by simp at h; exact h.2.2
    simp [findPair, ha, hb, findPair_not_found hash_data rest current hrest]

/-- A level containing the current hash yields a proof step whose recorded
sibling and side recompute exactly the parent, and the parent lies in the
combined level. -/
theorem findPair_found (hash_data : String → String) :
    ∀ level : List String, ∀ current : String, current ∈ level →
      ∃ sib side parent,
        findPair hash_data current level = some (sib, side, parent) ∧
        parent ∈ nextLevel hash_data level ∧
        ∀ rest, verifyFold hash_data ((sib, side) :: rest) current =
          verifyFold hash_data rest parent
  | [], current, h => absurd h (List.not_mem_nil current)
  | [a], current, h => by
    have hca : current = a := by simpa using h
    refine ⟨a, "right", hash_data (a ++ a), ?_, ?_, ?_⟩
    · simp only [findPair]
      rw [if_pos hca]
    · simp [nextLevel]
    · intro rest
      simp [verifyFold, hca]
  | a :: b :: rest, current, h => by
    by_cases hca : current = a
    · refine ⟨b, "right", hash_data (a ++ b), ?_, ?_, ?_⟩
      · simp only [findPair]
        rw [if_pos hca]
      · simp [nextLevel]
      · intro r
        simp [verifyFold, hca]
    · by_cases hcb : current = b
      · refine ⟨a, "left", hash_data (a ++ b), ?_, ?_, ?_⟩
        · simp only [findPair]
          rw [if_neg hca, if_pos hcb]
        · simp [nextLevel]
        · intro r
          simp [verifyFold, hcb]
      · have hmem : current ∈ rest := by
          simp only [List.mem_cons] at h
          rcases h with h | h | h
          · exact absurd h hca
          · exact absurd h hcb
          · exact h
        obtain ⟨sib, side, parent, hfp, hpar, hstep⟩ :=
          findPair_found hash_data rest current hmem
        refine ⟨sib, side, parent, ?_, ?_, hstep⟩
        · simp only [findPair]
          rw [if_neg hca, if_neg hcb, hfp]
        · simp only [nextLevel]
          exact List.mem_cons_of_mem _ hpar

/-- `verify_merkle_proof` succeeds exactly when the folded hash chain is
defined and reaches the expected root. -/
theorem verify_eq_fold (hash_data : String → String) :
    ∀ proof : List (String × String), ∀ computed root : String,
      verify_merkle_proof hash_data proof computed root = true ↔
        verifyFold hash_data proof computed = some root
  | [], computed, root => by
    simp [verify_merkle_proof, verifyFold]
  | (sib, side) :: rest, computed, root => by
    by_cases h1 : side = "left"
    · simp [verify_merkle_proof, verifyFold, h1, verify_eq_fold hash_data rest]
    · by_cases h2 : side = "right"
      · simp [verify_merkle_proof, verifyFold, h1, h2, verify_eq_fold hash_data rest]
      · simp [verify_merkle_proof, verifyFold, h1, h2]

/-- Main loop invariant: starting from any digest present in the current
level, the proof loop over the remaining levels below the root appends
steps whose hash chain reaches the root of the tree grown from that
level. -/
theorem proofLoop_correct (hash_data : String → String) :
    ∀ n : Nat, ∀ level : List String, level.length ≤ n → level ≠ [] →
      ∀ current : String, current ∈ level → ∀ acc : List (String × String),
        ∃ p, proofLoop hash_data current acc ((buildFrom hash_data level).dropLast) =
            acc ++ p ∧
          verifyFold hash_data p current =
            some (get_merkle_root (buildFrom hash_data level)) := by
  intro n
  induction n with
  | zero =>
    intro level hlen hne
    exact absurd (List.length_eq_zero.mp (Nat.le_zero.mp hlen)) hne
  | succ n ih =>
    intro level hlen hne current hcur acc
    by_cases hle : level.length ≤ 1
    · obtain ⟨a, rfl⟩ : ∃ a, level = [a] := by
        rcases level with _ | ⟨a, _ | _⟩
        · exact absurd rfl hne
        · exact ⟨a, rfl⟩
        · simp at hle
      have hca : current = a := by simpa using hcur
      refine ⟨[], ?_, ?_⟩
      · simp [buildFrom_of_le hash_data [a] (by simp), proofLoop]
      · simp [buildFrom_of_le hash_data [a] (by simp), verifyFold, hca,
          get_merkle_root_eq]
    · have h2 : 2 ≤ level.length := by omega
      have hb := buildFrom_ne_nil hash_data (nextLevel hash_data level)
      obtain ⟨sib, side, parent, hfp, hparent, hstep⟩ :=
        findPair_found hash_data level current hcur
      have hnl_ne : nextLevel hash_data level ≠ [] := nextLevel_ne_nil hash_data hne
      have hnl_len : (nextLevel hash_data level).length ≤ n := by
        rw [nextLevel_length]
        omega
      obtain ⟨p2, hp2, hv2⟩ :=
        ih (nextLevel hash_data level) hnl_len hnl_ne parent hparent (acc ++ [(sib, side)])
      refine ⟨(sib, side) :: p2, ?_, ?_⟩
      · rw [buildFrom_of_lt hash_data level h2, List.dropLast_cons_of_ne_nil hb]
        simp only [proofLoop, hfp]
        rw [hp2]
        simp
      · rw [hstep, hv2, buildFrom_of_lt hash_data level h2, get_merkle_root_cons _ _ hb]

/-- Structural invariant of `buildFrom`: the first level is the starting
level, consecutive level lengths halve rounding up, every level below the
top has more than one node, and the top level is a singleton. -/
theorem buildFrom_invariant (hash_data : String → String) :
    ∀ n : Nat, ∀ level : List String, level.length ≤ n → level ≠ [] →
      (buildFrom hash_data level).head? = some level ∧
      List.Chain' (fun a b => b.length = (a.length + 1) / 2) (buildFrom hash_data level) ∧
      (∀ l ∈ (buildFrom hash_data level).dropLast, 1 < l.length) ∧
      ∃ lst, (buildFrom hash_data level).getLast? = some lst ∧ lst.length = 1 := by
  intro n
  induction n with
  | zero =>
    intro level hlen hne
    exact absurd (List.length_eq_zero.mp (Nat.le_zero.mp hlen)) hne
  | succ n ih =>
    intro level hlen hne
    by_cases hle : level.length ≤ 1
    · have hlen1 : level.length = 1 := by
        have : level.length ≠ 0 := by
          intro h0
          exact hne (List.length_eq_zero.mp h0)
        omega
      rw [buildFrom_of_le hash_data level hle]
      exact ⟨rfl, by simp, by simp, ⟨level, rfl, hlen1⟩⟩
    · have h2 : 2 ≤ level.length := by omega
      have hnl_ne := nextLevel_ne_nil hash_data hne
      have hnl_len : (nextLevel hash_data level).length ≤ n := by
        rw [nextLevel_length]
        omega
      obtain ⟨ihead, ichain, idrop, lst, ilast, ilen⟩ :=
        ih (nextLevel hash_data level) hnl_len hnl_ne
      have hb := buildFrom_ne_nil hash_data (nextLevel hash_data level)
      rw [buildFrom_of_lt hash_data level h2]
      refine ⟨rfl, ?_, ?_, ⟨lst, ?_, ilen⟩⟩
      · rw [List.chain'_cons']
        refine ⟨?_, ichain⟩
        intro y hy
        rw [ihead] at hy
        have hyeq : nextLevel hash_data level = y := by simpa using hy
        rw [← hyeq, nextLevel_length]
      · rw [List.dropLast_cons_of_ne_nil hb]
        intro l hl
        rcases List.mem_cons.mp hl with rfl | hl
        · omega
        · exact idrop l hl
      · rcases hbf : buildFrom hash_data (nextLevel hash_data level) with _ | ⟨y, t⟩
        · exact absurd hbf hb
        · rw [List.getLast?_cons_cons]
          rw [hbf] at ilast
          exact ilast

/-! ### Claim theorems -/

/-- C1.  Round trip: for every tree built from a non-empty leaf-digest
sequence and every digest in the leaf level, verifying the generated proof
against the tree's root succeeds. -/
theorem merkle_round_trip (hash_data : String → String) (leaf_hashes : List String)
    (hne : leaf_hashes ≠ []) (d : String) (hd : d ∈ leaf_hashes) :
    verify_merkle_proof hash_data
      (get_merkle_proof hash_data (build_merkle_tree hash_data leaf_hashes) d) d
      (get_merkle_root (build_merkle_tree hash_data leaf_hashes)) = true := by
  have hbuild : build_merkle_tree hash_data leaf_hashes = buildFrom hash_data leaf_hashes := by
    unfold build_merkle_tree
    rw [if_neg hne]
  obtain ⟨t, ht⟩ := buildFrom_head hash_data leaf_hashes
  obtain ⟨p, hp, hv⟩ :=
    proofLoop_correct hash_data leaf_hashes.length leaf_hashes le_rfl hne d hd []
  have hg : get_merkle_proof hash_data (buildFrom hash_data leaf_hashes) d =
      proofLoop hash_data d [] ((buildFrom hash_data leaf_hashes).dropLast) := by
    conv_lhs => rw [ht]
    simp only [get_merkle_proof]
    rw [if_neg hne, ← ht]
  rw [hbuild, hg, hp]
  simp only [List.nil_append]
  rw [verify_eq_fold]
  exact hv

/-- Witness for C1 on the concrete three-leaf input. -/
theorem merkle_round_trip_witness :
    verify_merkle_proof demoHash
      (get_merkle_proof demoHash (build_merkle_tree demoHash ["a", "b", "c"]) "b") "b"
      (get_merkle_root (build_merkle_tree demoHash ["a", "b", "c"])) = true :=
  merkle_round_trip demoHash ["a", "b", "c"] (by decide) "b" (by decide)

/-- C2.  Levels combine by left-to-right pairwise hashing with string
concatenation left then right, an odd trailing node is hashed with itself,
and on three leaves the tree, root and the proof for the first leaf have
exactly the documented shape. -/
theorem pairwise_combination (hash_data : String → String) (h1 h2 h3 a b : String)
    (rest : List String) :
    nextLevel hash_data (a :: b :: rest) = hash_data (a ++ b) :: nextLevel hash_data rest ∧
    nextLevel hash_data [a] = [hash_data (a ++ a)] ∧
    build_merkle_tree hash_data [h1, h2, h3] =
      [[h1, h2, h3],
       [hash_data (h1 ++ h2), hash_data (h3 ++ h3)],
       [hash_data (hash_data (h1 ++ h2) ++ hash_data (h3 ++ h3))]] ∧
    get_merkle_root (build_merkle_tree hash_data [h1, h2, h3]) =
      hash_data (hash_data (h1 ++ h2) ++ hash_data (h3 ++ h3)) ∧
    get_merkle_proof hash_data (build_merkle_tree hash_data [h1, h2, h3]) h1 =
      [(h2, "right"), (hash_data (h3 ++ h3), "right")] ∧
    verify_merkle_proof hash_data [(h2, "right"), (hash_data (h3 ++ h3), "right")] h1
      (get_merkle_root (build_merkle_tree hash_data [h1, h2, h3])) = true := by
  have e0 : nextLevel hash_data [h1, h2, h3] =
      [hash_data (h1 ++ h2), hash_data (h3 ++ h3)] := by
    simp [nextLevel]
  have e1 : nextLevel hash_data [hash_data (h1 ++ h2), hash_data (h3 ++ h3)] =
      [hash_data (hash_data (h1 ++ h2) ++ hash_data (h3 ++ h3))] := by
    simp [nextLevel]
  have hb : build_merkle_tree hash_data [h1, h2, h3] =
      [[h1, h2, h3],
       [hash_data (h1 ++ h2), hash_data (h3 ++ h3)],
       [hash_data (hash_data (h1 ++ h2) ++ hash_data (h3 ++ h3))]] := by
    unfold build_merkle_tree
    rw [if_neg (by simp), buildFrom_of_lt _ _ (by simp), e0,
      buildFrom_of_lt _ _ (by simp), e1, buildFrom_of_le _ _ (by simp)]
  have hroot : get_merkle_root (build_merkle_tree hash_data [h1, h2, h3]) =
      hash_data (hash_data (h1 ++ h2) ++ hash_data (h3 ++ h3)) := by
    rw [hb, get_merkle_root_eq]
    simp
  have hproof : get_merkle_proof hash_data (build_merkle_tree hash_data [h1, h2, h3]) h1 =
      [(h2, "right"), (hash_data (h3 ++ h3), "right")] := by
    rw [hb]
    simp [get_merkle_proof, proofLoop, findPair]
  refine ⟨by simp [nextLevel], by simp [nextLevel], hb, hroot, hproof, ?_⟩
  rw [hroot]
  simp [verify_merkle_proof]

/-- C3.  The level-size invariant of trees built from a non-empty leaf
sequence: the first level is the input, each next level's length is the
ceiling of half the previous one's, every level below the top has more than
one node, and the top level has exactly one element. -/
theorem level_size_invariant (hash_data : String → String) (leaf_hashes : List String)
    (hne : leaf_hashes ≠ []) :
    (build_merkle_tree hash_data leaf_hashes).head? = some leaf_hashes ∧
    List.Chain' (fun a b => b.length = (a.length + 1) / 2)
      (build_merkle_tree hash_data leaf_hashes) ∧
    (∀ l ∈ (build_merkle_tree hash_data leaf_hashes).dropLast, 1 < l.length) ∧
    ∃ lst, (build_merkle_tree hash_data leaf_hashes).getLast? = some lst ∧
      lst.length = 1 := by
  have hbuild : build_merkle_tree hash_data leaf_hashes = buildFrom hash_data leaf_hashes := by
    unfold build_merkle_tree
    rw [if_neg hne]
  rw [hbuild]
  exact buildFrom_invariant hash_data leaf_hashes.length leaf_hashes le_rfl hne

/-- Witness for C3: the first level of the concrete three-leaf tree is the
leaf sequence itself. -/
theorem level_size_invariant_witness :
    (build_merkle_tree demoHash ["a", "b", "c"]).head? = some ["a", "b", "c"] :=
  (level_size_invariant demoHash ["a", "b", "c"] (by decide)).1

/-- C4 counterexample: the not-found result of `get_merkle_proof` (target
`"zzz"` is not a member of the two-leaf tree) is the empty proof, the very
value returned for the sole leaf of a one-leaf tree — the two are not
distinguishable. -/
theorem notfound_indistinguishable :
    get_merkle_proof demoHash (build_merkle_tree demoHash ["a", "b"]) "zzz" = [] ∧
    get_merkle_proof demoHash (build_merkle_tree demoHash ["a"]) "a" = [] ∧
    get_merkle_proof demoHash (build_merkle_tree demoHash ["a", "b"]) "zzz" =
      get_merkle_proof demoHash (build_merkle_tree demoHash ["a"]) "a" := by
  have hb2 : build_merkle_tree demoHash ["a", "b"] =
      [["a", "b"], [demoHash ("a" ++ "b")]] := by
    unfold build_merkle_tree
    rw [if_neg (by decide), buildFrom_of_lt _ _ (by decide)]
    have : nextLevel demoHash ["a", "b"] = [demoHash ("a" ++ "b")] := by
      simp [nextLevel]
    rw [this, buildFrom_of_le _ _ (by simp)]
  have hb1 : build_merkle_tree demoHash ["a"] = [["a"]] := by
    unfold build_merkle_tree
    rw [if_neg (by decide), buildFrom_of_le _ _ (by decide)]
  have e2 : get_merkle_proof demoHash (build_merkle_tree demoHash ["a", "b"]) "zzz" = [] := by
    rw [hb2]
    simp [get_merkle_proof, proofLoop, findPair]
  have e1 : get_merkle_proof demoHash (build_merkle_tree demoHash ["a"]) "a" = [] := by
    rw [hb1]
    simp [get_merkle_proof, proofLoop]
  exact ⟨e2, e1, by rw [e1, e2]⟩

/-- C4 amended: when the target digest is missing from a level scanned by
the proof loop, `get_merkle_proof` returns the empty proof, the same value
it returns for the sole leaf of a one-leaf tree; the not-found signal is
not distinguishable from a valid empty proof. -/
theorem notfound_returns_empty (hash_data : String → String) (lvl0 : List String)
    (rest : List (List String)) (x : String)
    (h0 : lvl0 ≠ []) (hr : rest ≠ []) (hx : x ∉ lvl0) :
    get_merkle_proof hash_data (lvl0 :: rest) x = [] ∧
    ∀ h : String, get_merkle_proof hash_data (build_merkle_tree hash_data [h]) h = [] := by
  constructor
  · simp only [get_merkle_proof]
    rw [if_neg h0, List.dropLast_cons_of_ne_nil hr]
    simp only [proofLoop, findPair_not_found hash_data lvl0 x hx]
  · intro h
    have hb : build_merkle_tree hash_data [h] = [[h]] := by
      unfold build_merkle_tree
      rw [if_neg (by simp), buildFrom_of_le _ _ (by simp)]
    rw [hb]
    simp [get_merkle_proof, proofLoop]

/-- Witness for the amended C4 on a concrete two-level tree and absent
target. -/
theorem notfound_returns_empty_witness :
    get_merkle_proof demoHash [["a", "b"], ["c"]] "zzz" = [] :=
  (notfound_returns_empty demoHash ["a", "b"] [["c"]] "zzz" (by decide) (by decide)
    (by decide)).1

/-- C5.  A proof step whose side tag is neither `"left"` nor `"right"`
makes verification return `false`; `verify_merkle_proof` is a total
function on arbitrary proof data, so it never raises. -/
theorem verify_rejects_bad_side (hash_data : String → String) :
    ∀ proof : List (String × String), ∀ target_hash merkle_root : String,
      (∃ step ∈ proof, step.2 ≠ "left" ∧ step.2 ≠ "right") →
      verify_merkle_proof hash_data proof target_hash merkle_root = false
  | [], _, _, h => by simp at h
  | (sib, side) :: rest, t, r, h => by
    by_cases h1 : side = "left"
    · have hrest : ∃ step ∈ rest, step.2 ≠ "left" ∧ step.2 ≠ "right" := by
        obtain ⟨step, hstep, hbad⟩ := h
        rcases List.mem_cons.mp hstep with rfl | hstep
        · exact absurd h1 hbad.1
        · exact ⟨step, hstep, hbad⟩
      simp only [verify_merkle_proof]
      rw [if_pos h1]
      exact verify_rejects_bad_side hash_data rest _ r hrest
    · by_cases h2 : side = "right"
      · have hrest : ∃ step ∈ rest, step.2 ≠ "left" ∧ step.2 ≠ "right" := by
          obtain ⟨step, hstep, hbad⟩ := h
          rcases List.mem_cons.mp hstep with rfl | hstep
          · exact absurd h2 hbad.2
          · exact ⟨step, hstep, hbad⟩
        simp only [verify_merkle_proof]
        rw [if_neg h1, if_pos h2]
        exact verify_rejects_bad_side hash_data rest _ r hrest
      · simp only [verify_merkle_proof]
        rw [if_neg h1, if_neg h2]

/-- Witness for C5 on a concrete malformed proof step. -/
theorem verify_rejects_bad_side_witness :
    verify_merkle_proof demoHash [("x", "up")] "t" "r" = false :=
  verify_rejects_bad_side demoHash [("x", "up")] "t" "r"
    ⟨("x", "up"), by decide, by decide, by decide⟩

/-- C6.  Empty input builds a tree with no levels whose root is the
sentinel, and on any tree whose last level is a singleton the root is that
single element. -/
theorem empty_and_last_level_root (hash_data : String → String) :
    build_merkle_tree hash_data [] = [] ∧
    get_merkle_root [] = "EMPTY_CONTRACT" ∧
    ∀ (tree : List (List String)) (r : String),
      tree.getLast? = some [r] → get_merkle_root tree = r := by
  refine ⟨by simp [build_merkle_tree], by simp [get_merkle_root], ?_⟩
  intro tree r hlast
  rw [get_merkle_root_eq, hlast]

/-- Witness for C6 on a concrete one-level tree. -/
theorem empty_and_last_level_root_witness :
    get_merkle_root [["r"]] = "r" :=
  (empty_and_last_level_root demoHash).2.2 [["r"]] "r" rfl

/-- C7.  A tree built from a singleton leaf sequence has that leaf as its
root. -/
theorem singleton_root (hash_data : String → String) (h : String) :
    get_merkle_root (build_merkle_tree hash_data [h]) = h := by
  have hb : build_merkle_tree hash_data [h] = [[h]] := by
    unfold build_merkle_tree
    rw [if_neg (by simp), buildFrom_of_le _ _ (by simp)]
  rw [hb, get_merkle_root_eq]
  simp

/-- C9.  On a one-leaf tree the proof loop never runs: `get_merkle_proof`
returns the empty proof for every target, and membership is decided only by
the subsequent verification, which succeeds exactly when the target equals
the sole leaf. -/
theorem one_leaf_tree_proof (hash_data : String → String) (h x : String) :
    get_merkle_proof hash_data (build_merkle_tree hash_data [h]) x = [] ∧
    (verify_merkle_proof hash_data
        (get_merkle_proof hash_data (build_merkle_tree hash_data [h]) x) x
        (get_merkle_root (build_merkle_tree hash_data [h])) = true ↔ x = h) := by
  have hb : build_merkle_tree hash_data [h] = [[h]] := by
    unfold build_merkle_tree
    rw [if_neg (by simp), buildFrom_of_le _ _ (by simp)]
  have hp : get_merkle_proof hash_data (build_merkle_tree hash_data [h]) x = [] := by
    rw [hb]
    simp [get_merkle_proof, proofLoop]
  have hr : get_merkle_root (build_merkle_tree hash_data [h]) = h := by
    rw [hb, get_merkle_root_eq]
    simp
  refine ⟨hp, ?_⟩
  rw [hp, hr]
  simp [verify_merkle_proof]

/-- C10.  `get_merkle_root` is total on arbitrary list-of-lists input: it
returns the sentinel when the tree has no levels or its last level is
empty, and otherwise the first element of the last level — it never fails
on any input. -/
theorem root_never_raises (tree : List (List String)) :
    (tree.getLast? = some [] → get_merkle_root tree = "EMPTY_CONTRACT") ∧
    (tree.getLast? = none → get_merkle_root tree = "EMPTY_CONTRACT") ∧
    (get_merkle_root tree = "EMPTY_CONTRACT" ∨
      ∃ r t, tree.getLast? = some (r :: t) ∧ get_merkle_root tree = r) := by
  refine ⟨?_, ?_, ?_⟩
  · intro h
    rw [get_merkle_root_eq, h]
  · intro h
    rw [get_merkle_root_eq, h]
  · rcases htree : tree.getLast? with _ | (_ | ⟨r, t⟩)
    · left
      rw [get_merkle_root_eq, htree]
    · left
      rw [get_merkle_root_eq, htree]
    · right
      exact ⟨r, t, rfl, by rw [get_merkle_root_eq, htree]⟩

/-- Witness for C10 on a tree whose last level is empty. -/
theorem root_never_raises_witness :
    get_merkle_root [["x"], []] = "EMPTY_CONTRACT" :=
  (root_never_raises [["x"], []]).1 rfl

/-- C8.  The diff report is positional: the header, then, for each index
below the shorter length in ascending order, a match entry when the hashes
agree and otherwise a mismatch entry carrying both cleaned clause texts,
and, when the lengths differ, a trailing block listing every clause at the
indices from the shorter length up to the longer length, taken from the
longer side only. -/
theorem report_positional (hashes_v1 hashes_v2 clauses_v1 clauses_v2 : List String) :
    get_clause_comparison_report hashes_v1 hashes_v2 clauses_v1 clauses_v2 =
      "🔎 Clause-Level Comparison:" ::
        ((List.range (min hashes_v1.length hashes_v2.length)).flatMap fun i =>
          if hashes_v1.getD i "" = hashes_v2.getD i "" then
            [get_label (clauses_v1.getD i "") (i + 1) ++ ": ✅ Match"]
          else
            [get_label (clauses_v1.getD i "") (i + 1) ++ ": ❌ Difference",
             "   🔹 V1: " ++ clean_clause (clauses_v1.getD i ""),
             "   🔹 V2: " ++ clean_clause (clauses_v2.getD i "")]) ++
        (if hashes_v1.length = hashes_v2.length then []
         else if hashes_v2.length < hashes_v1.length then
           "Additional Clauses:" :: "   🔹 V1 has additional clauses:" ::
             (List.range' hashes_v2.length (hashes_v1.length - hashes_v2.length)).map
               (fun i => "      " ++ get_label (clauses_v1.getD i "") (i + 1) ++ ": " ++
                 clean_clause (clauses_v1.getD i ""))
         else
           "Additional Clauses:" :: "   🔹 V2 has additional clauses:" ::
             (List.range' hashes_v1.length (hashes_v2.length - hashes_v1.length)).map
               (fun i => "      " ++ get_label (clauses_v2.getD i "") (i + 1) ++ ": " ++
                 clean_clause (clauses_v2.getD i ""))) := by
  have hloop : ∀ (is : List Nat) (acc : List String),
      reportLoop hashes_v1 hashes_v2 clauses_v1 clauses_v2 is acc =
        acc ++ is.flatMap fun i =>
          if hashes_v1.getD i "" = hashes_v2.getD i "" then
            [get_label (clauses_v1.getD i "") (i + 1) ++ ": ✅ Match"]
          else
            [get_label (clauses_v1.getD i "") (i + 1) ++ ": ❌ Difference",
             "   🔹 V1: " ++ clean_clause (clauses_v1.getD i ""),
             "   🔹 V2: " ++ clean_clause (clauses_v2.getD i "")] := by
    intro is
    induction is with
    | nil => intro acc; simp [reportLoop]
    | cons i is ih => intro acc; simp [reportLoop, ih]
  have hadd : ∀ (clauses : List String) (is : List Nat) (acc : List String),
      additionalLoop clauses is acc =
        acc ++ is.map fun i =>
          "      " ++ get_label (clauses.getD i "") (i + 1) ++ ": " ++
            clean_clause (clauses.getD i "") := by
    intro clauses is
    induction is with
    | nil => intro acc; simp [additionalLoop]
    | cons i is ih => intro acc; simp [additionalLoop, ih]
  simp only [get_clause_comparison_report]
  rcases Nat.lt_trichotomy hashes_v1.length hashes_v2.length with hlt | heq | hgt
  · have hmin : min hashes_v1.length hashes_v2.length = hashes_v1.length :=
      Nat.min_eq_left (Nat.le_of_lt hlt)
    have hmax : max hashes_v1.length hashes_v2.length = hashes_v2.length :=
      Nat.max_eq_right (Nat.le_of_lt hlt)
    rw [hmin, hmax, if_pos hlt, if_neg (by omega : ¬ hashes_v1.length > hashes_v2.length),
      if_neg (by omega : ¬ hashes_v1.length = hashes_v2.length),
      if_neg (by omega : ¬ hashes_v2.length < hashes_v1.length), hadd, hloop]
    simp
  · have hmin : min hashes_v1.length hashes_v2.length = hashes_v1.length := by
      rw [heq]; exact Nat.min_self _
    have hmax : max hashes_v1.length hashes_v2.length = hashes_v1.length := by
      rw [heq]; exact Nat.max_self _
    rw [hmin, hmax, if_neg (by omega : ¬ hashes_v1.length > hashes_v1.length),
      if_pos heq, hloop]
    simp
  · have hmin : min hashes_v1.length hashes_v2.length = hashes_v2.length :=
      Nat.min_eq_right (Nat.le_of_lt hgt)
    have hmax : max hashes_v1.length hashes_v2.length = hashes_v1.length :=
      Nat.max_eq_left (Nat.le_of_lt hgt)
    rw [hmin, hmax, if_pos hgt, if_pos hgt,
      if_neg (by omega : ¬ hashes_v1.length = hashes_v2.length),
      if_pos hgt, hadd, hloop]
    simp

end SmartContractIntegrity
